import Mathlib

/-!
Shallow embedding of `drf_middleware.py` (package `drf-middleware`).

The module under verification provides:
  - `load_middleware_classes()`: reads `settings.DRF_MIDDLEWARE_CLASSES` (an
    ordered list of dotted identifiers) and imports each with Django's
    `import_string`, in order.
  - `MIDDLEWARE_CLASSES = SimpleLazyObject(func=load_middleware_classes)`:
    lazy, process-wide cache of the resolved class list.
  - `DRFMiddleware`: an ABC with two abstract methods, `process_request`
    and `process_response`.
  - `MiddlewareEnabledAPIView`: overrides `initial` (build the middleware
    instance list, call `super().initial`, run each `process_request`) and
    `finalize_response` (call `super().finalize_response`, then run
    `process_response` of the middlewares in the slice `[-1:]`, threading
    the response through).

Modelling choices:
  - Requests and responses are opaque identifiers (`Nat`).
  - A middleware class is a record of behaviours: whether its no-argument
    constructor succeeds (`initOk`), whether `process_request` raises at a
    given request (`preOk`) and what it returns (`preRet`, discarded by the
    dispatcher exactly as the source discards the hook's return value),
    and likewise for `process_response` (`postOk`, `postRet`).
  - Python exceptions are `Option Err` / `Except Err` results.
  - Side effects observable in a run (an `import_string` success, an
    instantiation, a hook invocation, the host framework's own lifecycle
    steps) are recorded in an event log carried by the `World` state.
  - External collaborators are explicit: `import_string` is a parameter
    `imp : String → Option MiddlewareClass` (`none` = ImportError);
    `SimpleLazyObject` is the cached-or-compute access `lazyAccess`;
    `super().initial` is a parameter telling whether it completes, and
    `super().finalize_response` a parameter transforming the response.
-/

namespace DrfMiddleware

/-- Opaque identifier of a DRF request object. -/
abbrev Request := Nat

/-- Opaque identifier of a DRF response object. -/
abbrev Response := Nat

/-- Observable side effects of a run, in occurrence order. -/
inductive Event where
  | importClass (cls : String)
  | instantiate (cls : String)
  | preHook (cls : String) (req : Request)
  | postHook (cls : String) (req : Request) (resp : Response)
  | superInitialDone (req : Request)
  | handlerRun (req : Request)
  | superFinalizeDone (req : Request)
deriving DecidableEq

/-- Python exceptions relevant to the module. -/
inductive Err where
  | importError (cls : String)
  | initError (cls : String)
  | hookError (cls : String)
  | superInitialError
deriving DecidableEq

/-- A middleware class: its dotted name together with the behaviour of its
no-argument constructor and of its two hook methods. An element of the
resolved list doubles as the instance built from it (instances carry no
constructor arguments). -/
structure MiddlewareClass where
  name : String
  initOk : Bool
  preOk : Request → Bool
  preRet : Request → Request
  postOk : Request → Response → Bool
  postRet : Request → Response → Response

/-- Loop of `load_middleware_classes`: walk the configured identifiers in
order, appending each imported class; an identifier that `import_string`
cannot resolve raises. Each successful import is logged. -/
def loadLoop (imp : String → Option MiddlewareClass) :
    List String → List MiddlewareClass → List Event × Except Err (List MiddlewareClass)
  | [], classes => ([], Except.ok classes)
  | n :: ns, classes =>
    match imp n with
    | none => ([], Except.error (Err.importError n))
    | some c =>
      let r := loadLoop imp ns (classes ++ [c])
      (Event.importClass n :: r.1, r.2)

/-- Models `load_middleware_classes()`: resolve every identifier of
`settings.DRF_MIDDLEWARE_CLASSES` in order. -/
def load_middleware_classes (imp : String → Option MiddlewareClass)
    (class_names : List String) : List Event × Except Err (List MiddlewareClass) :=
  loadLoop imp class_names []

/-- Models access to `MIDDLEWARE_CLASSES = SimpleLazyObject(func=load_middleware_classes)`:
a cached value is returned as is; an empty cache runs the loader (whose
failure propagates, leaving the cache empty). -/
def lazyAccess (imp : String → Option MiddlewareClass) (names : List String)
    (cache : Option (List MiddlewareClass)) :
    List Event × Except Err (List MiddlewareClass) :=
  match cache with
  | some cs => ([], Except.ok cs)
  | none => load_middleware_classes imp names

/-- The `self.__middlewares` attribute: `None` before the first
`initialize_middlewares` call, a list afterwards. -/
structure ViewState where
  middlewares : Option (List MiddlewareClass)

/-- Process/handler state threaded through a run: the lazy object's cache,
the view's middleware attribute, and the event log. -/
structure World where
  lazyClasses : Option (List MiddlewareClass)
  view : ViewState
  log : List Event

/-- Fresh state: empty lazy cache, `self.__middlewares = None`, empty log. -/
def World.start : World :=
  { lazyClasses := none, view := { middlewares := none }, log := [] }

/-- The list comprehension `[MiddlewareClass() for MiddlewareClass in middleware_classes]`:
instantiate each class in order; a failing constructor raises, keeping the
side effects of the instantiations already performed. -/
def instantiateAll : List MiddlewareClass → List Event × Except Err (List MiddlewareClass)
  | [] => ([], Except.ok [])
  | c :: cs =>
    if c.initOk then
      let r := instantiateAll cs
      (Event.instantiate c.name :: r.1, r.2.map (fun l => c :: l))
    else
      ([], Except.error (Err.initError c.name))

/-- Models `MiddlewareEnabledAPIView.initialize_middlewares` (the Python
name): read `MIDDLEWARE_CLASSES` (first access resolves and fills the
cache) and rebuild `self.__middlewares` as a fresh list of instances. On a
raise, `self.__middlewares` is left untouched. -/
def init_middlewares (imp : String → Option MiddlewareClass) (names : List String)
    (w : World) : World × Option Err :=
  match lazyAccess imp names w.lazyClasses with
  | (aevs, Except.error e) => ({ w with log := w.log ++ aevs }, some e)
  | (aevs, Except.ok cs) =>
    match instantiateAll cs with
    | (ievs, Except.error e) =>
      ({ w with lazyClasses := some cs, log := w.log ++ aevs ++ ievs }, some e)
    | (ievs, Except.ok ms) =>
      ({ w with lazyClasses := some cs,
                view := { middlewares := some ms },
                log := w.log ++ aevs ++ ievs }, none)

/-- Python truthiness of `self.__middlewares`: `None` and `[]` are falsy. -/
def truthy {α : Type} : Option (List α) → Bool
  | none => false
  | some l => !l.isEmpty

/-- The loop of `middleware_process_request`: call `process_request` on
each middleware in list order, discarding its return value; a raising hook
aborts the loop and propagates. -/
def preLoop (req : Request) : List MiddlewareClass → List Event × Option Err
  | [] => ([], none)
  | m :: ms =>
    if m.preOk req then
      let r := preLoop req ms
      (Event.preHook m.name req :: r.1, r.2)
    else
      ([Event.preHook m.name req], some (Err.hookError m.name))

/-- Models `MiddlewareEnabledAPIView.middleware_process_request`: guarded
by `if self.__middlewares:`. -/
def middleware_process_request (req : Request) (s : ViewState) :
    List Event × Option Err :=
  if truthy s.middlewares then
    preLoop req (s.middlewares.getD [])
  else
    ([], none)

/-- Python slice `xs[-1:]`: the last element as a one-element list, `[]`
when `xs` is empty. -/
def lastSlice {α : Type} (xs : List α) : List α := xs.drop (xs.length - 1)

/-- The loop of `middleware_process_response`: thread the response through
`process_response` of each middleware of the slice. -/
def postLoop (req : Request) :
    List MiddlewareClass → Response → List Event × Except Err Response
  | [], resp => ([], Except.ok resp)
  | m :: ms, resp =>
    if m.postOk req resp then
      let r := postLoop req ms (m.postRet req resp)
      (Event.postHook m.name req resp :: r.1, r.2)
    else
      ([Event.postHook m.name req resp], Except.error (Err.hookError m.name))

/-- Models `MiddlewareEnabledAPIView.middleware_process_response`: guarded
by `if self.__middlewares:`, loops over `self.__middlewares[-1:]`, returns
the (possibly replaced) response. -/
def middleware_process_response (req : Request) (resp : Response) (s : ViewState) :
    List Event × Except Err Response :=
  if truthy s.middlewares then
    postLoop req (lastSlice (s.middlewares.getD [])) resp
  else
    ([], Except.ok resp)

/-- Models `MiddlewareEnabledAPIView.initial`: rebuild the middleware list,
run `super().initial` (a raise propagates), then run the pre-hooks.
`superInitialOk req` tells whether the host framework's own `initial`
completes without raising at this request. -/
def initial (imp : String → Option MiddlewareClass) (names : List String)
    (superInitialOk : Request → Bool) (req : Request) (w : World) :
    World × Option Err :=
  match init_middlewares imp names w with
  | (w1, some e) => (w1, some e)
  | (w1, none) =>
    if superInitialOk req then
      let w2 := { w1 with log := w1.log ++ [Event.superInitialDone req] }
      let r := middleware_process_request req w2.view
      ({ w2 with log := w2.log ++ r.1 }, r.2)
    else
      (w1, some Err.superInitialError)

/-- Models `MiddlewareEnabledAPIView.finalize_response`: run the host
framework's `finalize_response` (`superFinalize`), then hand the finalized
response to `middleware_process_response` and return its result. -/
def finalize_response (superFinalize : Request → Response → Response)
    (req : Request) (resp : Response) (w : World) : World × Except Err Response :=
  let resp1 := superFinalize req resp
  let w1 := { w with log := w.log ++ [Event.superFinalizeDone req] }
  let r := middleware_process_response req resp1 w1.view
  ({ w1 with log := w1.log ++ r.1 }, r.2)

/-- Modelled from the spec: the host framework's per-request control flow
around the overridden hooks (spec section 2: request → `initial` →
handler → `finalize_response` → response), which lives in DRF's
`APIView.dispatch`, outside this repository. An exception raised in
`initial` propagates to the framework's error path: the handler is not
invoked and the middleware layer sees nothing further for this request. -/
def dispatch (imp : String → Option MiddlewareClass) (names : List String)
    (superInitialOk : Request → Bool) (handler : Request → Response)
    (superFinalize : Request → Response → Response) (req : Request)
    (w : World) : World × Except Err Response :=
  match initial imp names superInitialOk req w with
  | (w1, some e) => (w1, Except.error e)
  | (w1, none) =>
    let resp := handler req
    let w2 := { w1 with log := w1.log ++ [Event.handlerRun req] }
    finalize_response superFinalize req resp w2

/-- Dispatch a sequence of requests against the same handler state. -/
def runRequests (imp : String → Option MiddlewareClass) (names : List String)
    (superInitialOk : Request → Bool) (handler : Request → Response)
    (superFinalize : Request → Response → Response) :
    List Request → World → World
  | [], w => w
  | r :: rs, w =>
    runRequests imp names superInitialOk handler superFinalize rs
      (dispatch imp names superInitialOk handler superFinalize r w).1

/-- The two operations of the `DRFMiddleware` abstract contract. -/
inductive MWOp where
  | processRequest
  | processResponse
deriving DecidableEq

/-- Both operations are declared `@abstractmethod` on `DRFMiddleware`. -/
def abstractMethods : List MWOp := [MWOp.processRequest, MWOp.processResponse]

/-- Python ABC semantics: the abstract operations a derived class still
leaves without an implementation. -/
def remainingAbstract (overridden : List MWOp) : List MWOp :=
  abstractMethods.filter (fun op => !(overridden.contains op))

/-- Python ABC semantics: a class can be instantiated exactly when its set
of remaining abstract methods is empty. -/
def canInstantiate (overridden : List MWOp) : Bool :=
  (remainingAbstract overridden).isEmpty

/-- A well-behaved middleware class used for concrete runs: constructor and
hooks never raise, `process_request` returns its argument, and
`process_response` returns the response unchanged. -/
def mkQuiet (n : String) : MiddlewareClass :=
  { name := n, initOk := true, preOk := fun _ => true, preRet := fun r => r,
    postOk := fun _ _ => true, postRet := fun _ r => r }

/-- A middleware class identical to `mkQuiet` except that its
`process_request` returns a replacement request (`r + 1`) instead of its
argument. -/
def mkShiftPre (n : String) : MiddlewareClass :=
  { name := n, initOk := true, preOk := fun _ => true, preRet := fun r => r + 1,
    postOk := fun _ _ => true, postRet := fun _ r => r }

/-- A middleware class whose `process_request` raises at every request,
while its constructor and `process_response` behave like `mkQuiet`. -/
def mkBadPre (n : String) : MiddlewareClass :=
  { name := n, initOk := true, preOk := fun _ => false, preRet := fun r => r,
    postOk := fun _ _ => true, postRet := fun _ r => r }

/-- A middleware class that imports fine but whose no-argument constructor
raises; hooks behave like `mkQuiet`. -/
def mkBadInit (n : String) : MiddlewareClass :=
  { name := n, initOk := false, preOk := fun _ => true, preRet := fun r => r,
    postOk := fun _ _ => true, postRet := fun _ r => r }

/-- A concrete import environment resolving "A", "B" and "C" to quiet
middleware classes. -/
def impQuiet : String → Option MiddlewareClass := fun n =>
  if n = "A" ∨ n = "B" ∨ n = "C" then some (mkQuiet n) else none

/-- A concrete import environment where "A" resolves to a quiet class and
"B" to a class whose constructor raises. -/
def impBadInit : String → Option MiddlewareClass := fun n =>
  if n = "A" then some (mkQuiet "A")
  else if n = "B" then some (mkBadInit "B")
  else none

/-- The per-request tail of the event log on a fully successful dispatch
with resolved class list `cs`: instances are rebuilt, the framework's
`initial` completes, every pre-hook runs in order, the handler runs, the
framework finalizes, and only the last middleware's post-hook runs. -/
def perRequestLog (superFinalize : Request → Response → Response)
    (handler : Request → Response) (cs : List MiddlewareClass) (req : Request) :
    List Event :=
  cs.map (fun c => Event.instantiate c.name)
    ++ Event.superInitialDone req :: cs.map (fun c => Event.preHook c.name req)
    ++ Event.handlerRun req :: Event.superFinalizeDone req ::
      (match cs.getLast? with
       | none => []
       | some m => [Event.postHook m.name req (superFinalize req (handler req))])

/-- The final response of a fully successful dispatch: the finalized
response, transformed by the last middleware's post-hook when one exists. -/
def perRequestResult (superFinalize : Request → Response → Response)
    (handler : Request → Response) (cs : List MiddlewareClass) (req : Request) :
    Response :=
  match cs.getLast? with
  | none => superFinalize req (handler req)
  | some m => m.postRet req (superFinalize req (handler req))

/-- The request an event mentions, when it mentions one. -/
def eventRequest : Event → Option Request
  | Event.importClass _ => none
  | Event.instantiate _ => none
  | Event.preHook _ r => some r
  | Event.postHook _ r _ => some r
  | Event.superInitialDone r => some r
  | Event.handlerRun r => some r
  | Event.superFinalizeDone r => some r

/-- Two middleware classes that agree on everything except the value their
`process_request` returns. -/
def eqExceptPreRet (c c' : MiddlewareClass) : Prop :=
  c.name = c'.name ∧ c.initOk = c'.initOk ∧ c.preOk = c'.preOk ∧
    c.postOk = c'.postOk ∧ c.postRet = c'.postRet

section Lemmas

theorem truthy_none {α : Type} : truthy (none : Option (List α)) = false := rfl

theorem truthy_some {α : Type} (l : List α) : truthy (some l) = !l.isEmpty := rfl

theorem lastSlice_nil {α : Type} : lastSlice ([] : List α) = [] := rfl

theorem lastSlice_concat {α : Type} (l : List α) (a : α) :
    lastSlice (l ++ [a]) = [a] := by
  have h : (l ++ [a]).length - 1 = l.length := by simp
  rw [lastSlice, h, List.drop_left]

theorem loadLoop_ok (imp : String → Option MiddlewareClass) (names : List String) :
    ∀ (acc : List MiddlewareClass) (evs : List Event) (cs : List MiddlewareClass),
      loadLoop imp names acc = (evs, Except.ok cs) →
      evs = names.map Event.importClass ∧
        ∃ cs', cs = acc ++ cs' ∧ List.Forall₂ (fun n c => imp n = some c) names cs' := by
  induction names with
  | nil =>
    intro acc evs cs h
    rw [loadLoop] at h
    obtain ⟨h1, h2⟩ := Prod.mk.injEq .. ▸ h
    refine ⟨h1.symm ▸ rfl, [], ?_, List.Forall₂.nil⟩
    cases h2
    simp
  | cons n ns ih =>
    intro acc evs cs h
    rw [loadLoop] at h
    cases himp : imp n with
    | none => rw [himp] at h; simp at h
    | some c =>
      rw [himp] at h
      simp only [Prod.mk.injEq] at h
      obtain ⟨hevs, hr2⟩ := h
      obtain ⟨hevs', cs', hcs', hfa⟩ :=
        ih (acc ++ [c]) (loadLoop imp ns (acc ++ [c])).1 cs (by rw [← hr2])
      subst hevs hcs'
      exact ⟨by rw [hevs']; rfl, c :: cs', by simp, List.Forall₂.cons himp hfa⟩

theorem loadLoop_err (imp : String → Option MiddlewareClass) (names : List String) :
    ∀ (acc : List MiddlewareClass) (n : String), n ∈ names → imp n = none →
      ∃ (m : String) (evs : List Event),
        m ∈ names ∧ imp m = none ∧
        loadLoop imp names acc = (evs, Except.error (Err.importError m)) ∧
        ∀ e ∈ evs, ∃ k, e = Event.importClass k := by
  induction names with
  | nil => intro _ _ h; cases h
  | cons n0 ns ih =>
    intro acc n hn hbad
    cases himp : imp n0 with
    | none =>
      exact ⟨n0, [], List.mem_cons_self .., himp, by rw [loadLoop, himp], by simp⟩
    | some c =>
      have hn' : n ∈ ns := by
        rcases List.mem_cons.mp hn with h | h
        · exact absurd himp (by rw [← h, hbad]; simp)
        · exact h
      obtain ⟨m, evs, hm, hmbad, hloop, hevs⟩ := ih (acc ++ [c]) n hn' hbad
      refine ⟨m, Event.importClass n0 :: evs, List.mem_cons_of_mem _ hm, hmbad, ?_, ?_⟩
      · rw [loadLoop, himp]; simp [hloop]
      · intro e he
        rcases List.mem_cons.mp he with h | h
        · exact ⟨n0, h⟩
        · exact hevs e h

theorem instantiateAll_ok (cs : List MiddlewareClass)
    (h : ∀ c ∈ cs, c.initOk = true) :
    instantiateAll cs = (cs.map (fun c => Event.instantiate c.name), Except.ok cs) := by
  induction cs with
  | nil => rfl
  | cons c cs ih =>
    rw [instantiateAll, if_pos (h c (List.mem_cons_self ..)),
      ih (fun x hx => h x (List.mem_cons_of_mem _ hx))]
    rfl

theorem preLoop_ok (req : Request) (cs : List MiddlewareClass)
    (h : ∀ c ∈ cs, c.preOk req = true) :
    preLoop req cs = (cs.map (fun c => Event.preHook c.name req), none) := by
  induction cs with
  | nil => rfl
  | cons c cs ih =>
    rw [preLoop, if_pos (h c (List.mem_cons_self ..)),
      ih (fun x hx => h x (List.mem_cons_of_mem _ hx))]
    rfl

theorem preLoop_fail (req : Request) (pre : List MiddlewareClass)
    (bad : MiddlewareClass) (rest : List MiddlewareClass)
    (hpre : ∀ c ∈ pre, c.preOk req = true) (hbad : bad.preOk req = false) :
    preLoop req (pre ++ bad :: rest)
      = (pre.map (fun c => Event.preHook c.name req) ++ [Event.preHook bad.name req],
         some (Err.hookError bad.name)) := by
  induction pre with
  | nil => rw [List.nil_append, preLoop, if_neg (by rw [hbad]; simp)]; rfl
  | cons c pre ih =>
    rw [List.cons_append, preLoop, if_pos (hpre c (List.mem_cons_self ..)),
      ih (fun x hx => hpre x (List.mem_cons_of_mem _ hx))]
    rfl

theorem middleware_process_request_none (req : Request) :
    middleware_process_request req ⟨none⟩ = ([], none) := rfl

theorem middleware_process_request_nil (req : Request) :
    middleware_process_request req ⟨some []⟩ = ([], none) := rfl

theorem middleware_process_request_cons (req : Request) (c : MiddlewareClass)
    (cs : List MiddlewareClass) :
    middleware_process_request req ⟨some (c :: cs)⟩ = preLoop req (c :: cs) := rfl

theorem middleware_process_request_ne (req : Request) (cs : List MiddlewareClass)
    (h : cs ≠ []) :
    middleware_process_request req ⟨some cs⟩ = preLoop req cs := by
  cases cs with
  | nil => exact absurd rfl h
  | cons c cs => rfl

theorem middleware_process_response_none (req : Request) (resp : Response) :
    middleware_process_response req resp ⟨none⟩ = ([], Except.ok resp) := rfl

theorem middleware_process_response_nil (req : Request) (resp : Response) :
    middleware_process_response req resp ⟨some []⟩ = ([], Except.ok resp) := rfl

theorem middleware_process_response_ne (req : Request) (resp : Response)
    (cs : List MiddlewareClass) (h : cs ≠ []) :
    middleware_process_response req resp ⟨some cs⟩ = postLoop req (lastSlice cs) resp := by
  cases cs with
  | nil => exact absurd rfl h
  | cons c cs => rfl

theorem postLoop_single (req : Request) (m : MiddlewareClass) (resp : Response)
    (h : m.postOk req resp = true) :
    postLoop req [m] resp
      = ([Event.postHook m.name req resp], Except.ok (m.postRet req resp)) := by
  rw [postLoop, if_pos h]; rfl

theorem init_middlewares_ok (imp : String → Option MiddlewareClass)
    (names : List String) (w : World) (levs : List Event)
    (cs : List MiddlewareClass)
    (hlazy : lazyAccess imp names w.lazyClasses = (levs, Except.ok cs))
    (hinit : ∀ c ∈ cs, c.initOk = true) :
    init_middlewares imp names w
      = ({ w with
           lazyClasses := some cs
           view := ⟨some cs⟩
           log := w.log ++ levs ++ cs.map (fun c => Event.instantiate c.name) },
         none) := by
  rw [init_middlewares]
  simp [hlazy, instantiateAll_ok cs hinit]

theorem initial_ok (imp : String → Option MiddlewareClass) (names : List String)
    (superInitialOk : Request → Bool) (req : Request) (w : World)
    (levs : List Event) (cs : List MiddlewareClass)
    (hlazy : lazyAccess imp names w.lazyClasses = (levs, Except.ok cs))
    (hinit : ∀ c ∈ cs, c.initOk = true)
    (hsuper : superInitialOk req = true) :
    initial imp names superInitialOk req w
      = ({ w with
           lazyClasses := some cs
           view := ⟨some cs⟩
           log := w.log ++ levs ++ cs.map (fun c => Event.instantiate c.name)
             ++ Event.superInitialDone req :: (middleware_process_request req ⟨some cs⟩).1 },
         (middleware_process_request req ⟨some cs⟩).2) := by
  rw [initial, init_middlewares_ok imp names w levs cs hlazy hinit]
  simp [hsuper]

theorem initial_superFail (imp : String → Option MiddlewareClass)
    (names : List String) (superInitialOk : Request → Bool) (req : Request)
    (w : World) (levs : List Event) (cs : List MiddlewareClass)
    (hlazy : lazyAccess imp names w.lazyClasses = (levs, Except.ok cs))
    (hinit : ∀ c ∈ cs, c.initOk = true)
    (hsuper : superInitialOk req = false) :
    initial imp names superInitialOk req w
      = ({ w with
           lazyClasses := some cs
           view := ⟨some cs⟩
           log := w.log ++ levs ++ cs.map (fun c => Event.instantiate c.name) },
         some Err.superInitialError) := by
  rw [initial, init_middlewares_ok imp names w levs cs hlazy hinit]
  simp [hsuper]

theorem finalize_response_eq (superFinalize : Request → Response → Response)
    (req : Request) (resp : Response) (w : World) :
    finalize_response superFinalize req resp w
      = ({ w with log := w.log ++ Event.superFinalizeDone req
             :: (middleware_process_response req (superFinalize req resp) w.view).1 },
         (middleware_process_response req (superFinalize req resp) w.view).2) := by
  rw [finalize_response]
  simp

theorem dispatch_ok (imp : String → Option MiddlewareClass) (names : List String)
    (superInitialOk : Request → Bool) (handler : Request → Response)
    (superFinalize : Request → Response → Response) (req : Request) (w : World)
    (levs : List Event) (cs : List MiddlewareClass)
    (hlazy : lazyAccess imp names w.lazyClasses = (levs, Except.ok cs))
    (hinit : ∀ c ∈ cs, c.initOk = true)
    (hpre : ∀ c ∈ cs, c.preOk req = true)
    (hsuper : superInitialOk req = true)
    (hpost : ∀ c ∈ cs, ∀ r p, c.postOk r p = true) :
    dispatch imp names superInitialOk handler superFinalize req w
      = ({ w with
           lazyClasses := some cs
           view := ⟨some cs⟩
           log := w.log ++ levs ++ perRequestLog superFinalize handler cs req },
         Except.ok (perRequestResult superFinalize handler cs req)) := by
  rcases List.eq_nil_or_concat cs with rfl | ⟨l, a, hcs⟩
  · rw [dispatch, initial_ok imp names superInitialOk req w levs [] hlazy hinit hsuper,
      middleware_process_request_nil]
    simp only [finalize_response_eq, middleware_process_response_nil]
    simp [perRequestLog, perRequestResult]
  · rw [List.concat_eq_append] at hcs
    subst hcs
    have hne : l ++ [a] ≠ [] := by simp
    have ha : a ∈ l ++ [a] := by simp
    have h1 : middleware_process_request req ⟨some (l ++ [a])⟩
        = ((l ++ [a]).map (fun c => Event.preHook c.name req), none) := by
      rw [middleware_process_request_ne _ _ hne, preLoop_ok _ _ hpre]
    have h2 : ∀ R : Response, middleware_process_response req R ⟨some (l ++ [a])⟩
        = ([Event.postHook a.name req R], Except.ok (a.postRet req R)) := by
      intro R
      rw [middleware_process_response_ne _ _ _ hne, lastSlice_concat,
        postLoop_single _ _ _ (hpost a ha req R)]
    rw [dispatch, initial_ok imp names superInitialOk req w levs _ hlazy hinit hsuper, h1]
    simp only [finalize_response_eq, h2]
    simp [perRequestLog, perRequestResult, List.getLast?_concat]

theorem lazyAccess_ok_events (imp : String → Option MiddlewareClass)
    (names : List String) (cache : Option (List MiddlewareClass))
    (levs : List Event) (cs : List MiddlewareClass)
    (h : lazyAccess imp names cache = (levs, Except.ok cs)) :
    ∀ e ∈ levs, ∃ k, e = Event.importClass k := by
  cases cache with
  | some cs0 =>
    rw [lazyAccess] at h
    simp only [Prod.mk.injEq] at h
    rw [← h.1]
    intro e he
    cases he
  | none =>
    rw [lazyAccess, load_middleware_classes] at h
    obtain ⟨hevs, -⟩ := loadLoop_ok imp names [] levs cs h
    subst hevs
    intro e he
    obtain ⟨k, -, hk⟩ := List.mem_map.mp he
    exact ⟨k, hk.symm⟩

theorem runRequests_warm (imp : String → Option MiddlewareClass)
    (names : List String) (superInitialOk : Request → Bool)
    (handler : Request → Response) (superFinalize : Request → Response → Response)
    (cs : List MiddlewareClass)
    (hinit : ∀ c ∈ cs, c.initOk = true)
    (hpre : ∀ c ∈ cs, ∀ r, c.preOk r = true)
    (hsuper : ∀ r, superInitialOk r = true)
    (hpost : ∀ c ∈ cs, ∀ r p, c.postOk r p = true) :
    ∀ (reqs : List Request) (w : World), w.lazyClasses = some cs →
      (runRequests imp names superInitialOk handler superFinalize reqs w).log
        = w.log ++ reqs.flatMap (perRequestLog superFinalize handler cs) ∧
      (runRequests imp names superInitialOk handler superFinalize reqs w).lazyClasses
        = some cs := by
  intro reqs
  induction reqs with
  | nil => intro w hw; simp [runRequests, hw]
  | cons r rs ih =>
    intro w hw
    have hlazy : lazyAccess imp names w.lazyClasses = ([], Except.ok cs) := by
      rw [hw]; rfl
    rw [runRequests, dispatch_ok imp names superInitialOk handler superFinalize r w [] cs
      hlazy hinit (fun c hc => hpre c hc r) (hsuper r) hpost]
    obtain ⟨h1, h2⟩ := ih
      { w with
        lazyClasses := some cs
        view := ⟨some cs⟩
        log := w.log ++ [] ++ perRequestLog superFinalize handler cs r } rfl
    refine ⟨?_, h2⟩
    rw [h1]
    simp

theorem loadLoop_events (imp : String → Option MiddlewareClass) :
    ∀ (names : List String) (acc : List MiddlewareClass),
      ∀ e ∈ (loadLoop imp names acc).1, ∃ k, e = Event.importClass k := by
  intro names
  induction names with
  | nil => intro acc e he; cases he
  | cons n ns ih =>
    intro acc e he
    cases himp : imp n with
    | none => rw [loadLoop, himp] at he; cases he
    | some c =>
      rw [loadLoop, himp] at he
      rcases List.mem_cons.mp he with rfl | he
      · exact ⟨n, rfl⟩
      · exact ih (acc ++ [c]) e he

theorem lazyAccess_events (imp : String → Option MiddlewareClass)
    (names : List String) (cache : Option (List MiddlewareClass)) :
    ∀ e ∈ (lazyAccess imp names cache).1, ∃ k, e = Event.importClass k := by
  cases cache with
  | some cs => intro e he; cases he
  | none => exact loadLoop_events imp names []

theorem instantiateAll_events :
    ∀ cs : List MiddlewareClass,
      ∀ e ∈ (instantiateAll cs).1, ∃ n, e = Event.instantiate n := by
  intro cs
  induction cs with
  | nil => intro e he; cases he
  | cons c cs ih =>
    intro e he
    cases hc : c.initOk
    · simp [instantiateAll, hc] at he
    · simp only [instantiateAll, hc, if_true] at he
      rcases List.mem_cons.mp he with rfl | he
      · exact ⟨c.name, rfl⟩
      · exact ih e he

theorem preLoop_events (req : Request) :
    ∀ ms : List MiddlewareClass,
      ∀ e ∈ (preLoop req ms).1, ∃ n, e = Event.preHook n req := by
  intro ms
  induction ms with
  | nil => intro e he; cases he
  | cons m ms ih =>
    intro e he
    cases hm : m.preOk req
    · simp only [preLoop, hm, Bool.false_eq_true, if_false] at he
      rcases List.mem_singleton.mp he with rfl
      exact ⟨m.name, rfl⟩
    · simp only [preLoop, hm, if_true] at he
      rcases List.mem_cons.mp he with rfl | he
      · exact ⟨m.name, rfl⟩
      · exact ih e he

theorem postLoop_events (req : Request) :
    ∀ (ms : List MiddlewareClass) (resp : Response),
      ∀ e ∈ (postLoop req ms resp).1, ∃ n p, e = Event.postHook n req p := by
  intro ms
  induction ms with
  | nil => intro resp e he; cases he
  | cons m ms ih =>
    intro resp e he
    cases hm : m.postOk req resp
    · simp only [postLoop, hm, Bool.false_eq_true, if_false] at he
      rcases List.mem_singleton.mp he with rfl
      exact ⟨m.name, resp, rfl⟩
    · simp only [postLoop, hm, if_true] at he
      rcases List.mem_cons.mp he with rfl | he
      · exact ⟨m.name, resp, rfl⟩
      · exact ih (m.postRet req resp) e he

theorem middleware_process_request_events (req : Request) (s : ViewState) :
    ∀ e ∈ (middleware_process_request req s).1, ∃ n, e = Event.preHook n req := by
  rw [middleware_process_request]
  cases ht : truthy s.middlewares
  · intro e he; cases he
  · simp only [if_true]
    exact preLoop_events req (s.middlewares.getD [])

theorem middleware_process_response_events (req : Request) (resp : Response)
    (s : ViewState) :
    ∀ e ∈ (middleware_process_response req resp s).1,
      ∃ n p, e = Event.postHook n req p := by
  rw [middleware_process_response]
  cases ht : truthy s.middlewares
  · intro e he; cases he
  · simp only [if_true]
    exact postLoop_events req (lastSlice (s.middlewares.getD [])) resp

theorem init_middlewares_log_shape (imp : String → Option MiddlewareClass)
    (names : List String) (w : World) :
    ∃ t, (init_middlewares imp names w).1.log = w.log ++ t ∧
      ∀ e ∈ t, eventRequest e = none := by
  have haevs := lazyAccess_events imp names w.lazyClasses
  rw [init_middlewares]
  rcases hA : lazyAccess imp names w.lazyClasses with ⟨aevs, ares⟩
  rw [hA] at haevs
  cases ares with
  | error e =>
    refine ⟨aevs, rfl, fun e he => ?_⟩
    obtain ⟨k, rfl⟩ := haevs e he
    rfl
  | ok cs =>
    have hievs := instantiateAll_events cs
    rcases hI : instantiateAll cs with ⟨ievs, ires⟩
    rw [hI] at hievs
    cases ires with
    | error e =>
      refine ⟨aevs ++ ievs, by simp [hI], fun e he => ?_⟩
      rcases List.mem_append.mp he with he | he
      · obtain ⟨k, rfl⟩ := haevs e he; rfl
      · obtain ⟨n, rfl⟩ := hievs e he; rfl
    | ok ms =>
      refine ⟨aevs ++ ievs, by simp [hI], fun e he => ?_⟩
      rcases List.mem_append.mp he with he | he
      · obtain ⟨k, rfl⟩ := haevs e he; rfl
      · obtain ⟨n, rfl⟩ := hievs e he; rfl

theorem initial_req_events (imp : String → Option MiddlewareClass)
    (names : List String) (superInitialOk : Request → Bool) (req : Request)
    (w : World) :
    ∃ t, (initial imp names superInitialOk req w).1.log = w.log ++ t ∧
      ∀ e ∈ t, ∀ r, eventRequest e = some r → r = req := by
  obtain ⟨t0, ht0, ht0n⟩ := init_middlewares_log_shape imp names w
  rw [initial]
  rcases hI : init_middlewares imp names w with ⟨w1, res⟩
  have hw1 : w1.log = w.log ++ t0 := by rw [← ht0, hI]
  have ht0r : ∀ e ∈ t0, ∀ r, eventRequest e = some r → r = req := by
    intro e he r hr
    rw [ht0n e he] at hr
    cases hr
  cases res with
  | some e => exact ⟨t0, hw1, ht0r⟩
  | none =>
    cases hS : superInitialOk req
    · simp only [Bool.false_eq_true, if_false]
      exact ⟨t0, hw1, ht0r⟩
    · simp only [if_true]
      refine ⟨t0 ++ Event.superInitialDone req
        :: (middleware_process_request req w1.view).1, by simp [hw1], ?_⟩
      intro e he r hr
      rcases List.mem_append.mp he with he | he
      · exact ht0r e he r hr
      rcases List.mem_cons.mp he with rfl | he
      · cases hr; rfl
      · obtain ⟨n, rfl⟩ := middleware_process_request_events req w1.view e he
        cases hr; rfl

theorem dispatch_req_events (imp : String → Option MiddlewareClass)
    (names : List String) (superInitialOk : Request → Bool)
    (handler : Request → Response) (superFinalize : Request → Response → Response)
    (req : Request) (w : World) :
    ∀ e ∈ (dispatch imp names superInitialOk handler superFinalize req w).1.log.drop
        w.log.length, ∀ r, eventRequest e = some r → r = req := by
  obtain ⟨t1, ht1, ht1r⟩ := initial_req_events imp names superInitialOk req w
  rw [dispatch]
  rcases hI : initial imp names superInitialOk req w with ⟨w1, res⟩
  have hw1 : w1.log = w.log ++ t1 := by rw [← ht1, hI]
  cases res with
  | some e =>
    intro e he
    rw [hw1, List.drop_left] at he
    exact ht1r e he
  | none =>
    dsimp only
    rw [finalize_response_eq]
    intro e he r hr
    simp only [hw1, List.append_assoc, List.drop_left] at he
    rcases List.mem_append.mp he with he | he
    · exact ht1r e he r hr
    rcases List.mem_append.mp he with he | he
    · rcases List.mem_singleton.mp he with rfl
      cases hr; rfl
    rcases List.mem_cons.mp he with rfl | he
    · cases hr; rfl
    · obtain ⟨n, p, rfl⟩ := middleware_process_response_events req
        (superFinalize req (handler req)) _ e he
      cases hr; rfl

theorem preLoop_congr (req : Request) :
    ∀ {cs cs' : List MiddlewareClass}, List.Forall₂ eqExceptPreRet cs cs' →
      preLoop req cs = preLoop req cs' := by
  intro cs cs' h
  induction h with
  | nil => rfl
  | cons hc htail ih =>
    obtain ⟨hname, -, hpre, -, -⟩ := hc
    simp only [preLoop]
    rw [hname, hpre, ih]

theorem postLoop_congr (req : Request) :
    ∀ {cs cs' : List MiddlewareClass}, List.Forall₂ eqExceptPreRet cs cs' →
      ∀ resp : Response, postLoop req cs resp = postLoop req cs' resp := by
  intro cs cs' h
  induction h with
  | nil => intro resp; rfl
  | cons hc htail ih =>
    intro resp
    obtain ⟨hname, -, -, hpostOk, hpostRet⟩ := hc
    simp only [postLoop]
    rw [hname, hpostOk, hpostRet, ih]

theorem instantiateAll_congr :
    ∀ {cs cs' : List MiddlewareClass}, List.Forall₂ eqExceptPreRet cs cs' →
      (instantiateAll cs).1 = (instantiateAll cs').1 ∧
      ((∃ e, (instantiateAll cs).2 = Except.error e ∧
          (instantiateAll cs').2 = Except.error e) ∨
        ∃ ms ms', (instantiateAll cs).2 = Except.ok ms ∧
          (instantiateAll cs').2 = Except.ok ms' ∧
          List.Forall₂ eqExceptPreRet ms ms')
  | _, _, List.Forall₂.nil =>
    ⟨rfl, Or.inr ⟨[], [], rfl, rfl, List.Forall₂.nil⟩⟩
  | a :: l, b :: l', List.Forall₂.cons hc htail => by
    obtain ⟨ihev, ihres⟩ := instantiateAll_congr htail
    obtain ⟨hname, hinitOk, hpre, hpostOk, hpostRet⟩ := hc
    cases ha : a.initOk with
    | false =>
      have hb : b.initOk = false := hinitOk ▸ ha
      refine ⟨?_, Or.inl ⟨Err.initError a.name, ?_, ?_⟩⟩
      · simp [instantiateAll, ha, hb]
      · simp [instantiateAll, ha]
      · simp [instantiateAll, hb, hname]
    | true =>
      have hb : b.initOk = true := hinitOk ▸ ha
      simp only [instantiateAll, ha, hb, if_true]
      refine ⟨by rw [hname, ihev], ?_⟩
      rcases ihres with ⟨e, he, he'⟩ | ⟨ms, ms', hm, hm', hms⟩
      · exact Or.inl ⟨e, by rw [he]; rfl, by rw [he']; rfl⟩
      · exact Or.inr ⟨a :: ms, b :: ms', by rw [hm]; rfl, by rw [hm']; rfl,
          List.Forall₂.cons ⟨hname, hinitOk, hpre, hpostOk, hpostRet⟩ hms⟩

theorem forall2_lastSlice {R : MiddlewareClass → MiddlewareClass → Prop}
    {l l' : List MiddlewareClass} (h : List.Forall₂ R l l') :
    List.Forall₂ R (lastSlice l) (lastSlice l') := by
  have hlen := List.Forall₂.length_eq h
  rw [lastSlice, lastSlice, hlen]
  exact List.forall₂_drop _ h

theorem middleware_process_request_congr (req : Request)
    {cs cs' : List MiddlewareClass} (h : List.Forall₂ eqExceptPreRet cs cs') :
    middleware_process_request req ⟨some cs⟩
      = middleware_process_request req ⟨some cs'⟩ := by
  cases h with
  | nil => rfl
  | cons hc htail =>
    rw [middleware_process_request_cons, middleware_process_request_cons]
    exact preLoop_congr req (List.Forall₂.cons hc htail)

theorem middleware_process_response_congr (req : Request) (resp : Response)
    {cs cs' : List MiddlewareClass} (h : List.Forall₂ eqExceptPreRet cs cs') :
    middleware_process_response req resp ⟨some cs⟩
      = middleware_process_response req resp ⟨some cs'⟩ := by
  cases h with
  | nil => rfl
  | @cons a b l l' hc htail =>
    rw [middleware_process_response_ne _ _ _ (by simp),
      middleware_process_response_ne _ _ _ (by simp)]
    exact postLoop_congr req (forall2_lastSlice (List.Forall₂.cons hc htail)) resp

theorem init_middlewares_warm_err (imp : String → Option MiddlewareClass)
    (names : List String) (cs : List MiddlewareClass) (v : ViewState)
    (L : List Event) (e : Err)
    (h : (instantiateAll cs).2 = Except.error e) :
    init_middlewares imp names ⟨some cs, v, L⟩
      = (⟨some cs, v, L ++ (instantiateAll cs).1⟩, some e) := by
  rw [init_middlewares]
  rcases hI : instantiateAll cs with ⟨ievs, ires⟩
  rw [hI] at h
  cases h
  simp [lazyAccess, hI]

theorem init_middlewares_warm_ok (imp : String → Option MiddlewareClass)
    (names : List String) (cs : List MiddlewareClass) (v : ViewState)
    (L : List Event) (ms : List MiddlewareClass)
    (h : (instantiateAll cs).2 = Except.ok ms) :
    init_middlewares imp names ⟨some cs, v, L⟩
      = (⟨some cs, ⟨some ms⟩, L ++ (instantiateAll cs).1⟩, none) := by
  rw [init_middlewares]
  rcases hI : instantiateAll cs with ⟨ievs, ires⟩
  rw [hI] at h
  cases h
  simp [lazyAccess, hI]

theorem loadLoop_err_inv (imp : String → Option MiddlewareClass) :
    ∀ (names : List String) (acc : List MiddlewareClass) (evs : List Event) (er : Err),
      loadLoop imp names acc = (evs, Except.error er) →
      ∃ m, m ∈ names ∧ imp m = none ∧ er = Err.importError m := by
  intro names
  induction names with
  | nil =>
    intro acc evs er h
    rw [loadLoop] at h
    simp at h
  | cons n ns ih =>
    intro acc evs er h
    cases himp : imp n with
    | none =>
      rw [loadLoop, himp] at h
      simp only [Prod.mk.injEq] at h
      obtain ⟨-, h2⟩ := h
      injection h2 with h3
      exact ⟨n, List.mem_cons_self .., himp, h3.symm⟩
    | some c =>
      rw [loadLoop, himp] at h
      simp only [Prod.mk.injEq] at h
      obtain ⟨-, h2⟩ := h
      obtain ⟨m, hm, hmbad, her⟩ :=
        ih (acc ++ [c]) (loadLoop imp ns (acc ++ [c])).1 er (by rw [← h2])
      exact ⟨m, List.mem_cons_of_mem _ hm, hmbad, her⟩

theorem instantiateAll_err :
    ∀ (cs : List MiddlewareClass) (c : MiddlewareClass), c ∈ cs → c.initOk = false →
      ∃ c0 ievs, c0 ∈ cs ∧ c0.initOk = false ∧
        instantiateAll cs = (ievs, Except.error (Err.initError c0.name)) := by
  intro cs
  induction cs with
  | nil => intro c hc _; cases hc
  | cons c1 cs ih =>
    intro c hc hbad
    cases h1 : c1.initOk with
    | false =>
      exact ⟨c1, [], List.mem_cons_self .., h1, by simp [instantiateAll, h1]⟩
    | true =>
      have hc' : c ∈ cs := by
        rcases List.mem_cons.mp hc with rfl | h
        · rw [h1] at hbad; cases hbad
        · exact h
      obtain ⟨c0, ievs, hc0, hc0bad, hI⟩ := ih c hc' hbad
      refine ⟨c0, Event.instantiate c1.name :: ievs,
        List.mem_cons_of_mem _ hc0, hc0bad, ?_⟩
      rw [instantiateAll]
      simp [h1, hI, Except.map]

theorem forall2_mem_left {α β : Type} {R : α → β → Prop} :
    ∀ {l₁ : List α} {l₂ : List β}, List.Forall₂ R l₁ l₂ →
      ∀ a ∈ l₁, ∃ b ∈ l₂, R a b := by
  intro l₁ l₂ h
  induction h with
  | nil => intro a ha; cases ha
  | cons hr htail ih =>
    intro a ha
    rcases List.mem_cons.mp ha with rfl | ha
    · exact ⟨_, List.mem_cons_self .., hr⟩
    · obtain ⟨b, hb, hbr⟩ := ih a ha
      exact ⟨b, List.mem_cons_of_mem _ hb, hbr⟩

theorem forall2_mem_right {α β : Type} {R : α → β → Prop} :
    ∀ {l₁ : List α} {l₂ : List β}, List.Forall₂ R l₁ l₂ →
      ∀ b ∈ l₂, ∃ a ∈ l₁, R a b := by
  intro l₁ l₂ h
  induction h with
  | nil => intro b hb; cases hb
  | cons hr htail ih =>
    intro b hb
    rcases List.mem_cons.mp hb with rfl | hb
    · exact ⟨_, List.mem_cons_self .., hr⟩
    · obtain ⟨a, ha, har⟩ := ih b hb
      exact ⟨a, List.mem_cons_of_mem _ ha, har⟩

end Lemmas

section Claims

/-- C1, counterexample. With the single configured class "A" (well-behaved:
constructor and hooks never raise), dispatching the two requests `0` and
`1` against one handler instance does not leave the instantiation count of
"A" at 1: `initial` rebuilds the instance list on every request, so "A" is
instantiated twice. -/
theorem C1_counterexample :
    ¬ ((runRequests impQuiet ["A"] (fun _ => true) (fun r => r) (fun _ r => r)
        [0, 1] World.start).log.count (Event.instantiate "A") = 1) := by
  decide

/-- C1, amended. Registry resolution of the configured classes happens at
most once per process: on a sequence of requests the import events `levs`
appear exactly once, contributed by the first request. The instance list,
however, is not reused: every dispatched request contributes its own block
of instantiation events (one fresh instance of every configured class per
request, as `perRequestLog` begins with the instantiation of every class),
so across N requests each class is instantiated N times, not once. -/
theorem C1_amended (imp : String → Option MiddlewareClass) (names : List String)
    (superInitialOk : Request → Bool) (handler : Request → Response)
    (superFinalize : Request → Response → Response)
    (levs : List Event) (cs : List MiddlewareClass)
    (hload : load_middleware_classes imp names = (levs, Except.ok cs))
    (hinit : ∀ c ∈ cs, c.initOk = true)
    (hpre : ∀ c ∈ cs, ∀ r, c.preOk r = true)
    (hsuper : ∀ r, superInitialOk r = true)
    (hpost : ∀ c ∈ cs, ∀ r p, c.postOk r p = true)
    (reqs : List Request) (hreqs : reqs ≠ []) :
    (runRequests imp names superInitialOk handler superFinalize reqs World.start).log
      = levs ++ reqs.flatMap (perRequestLog superFinalize handler cs) := by
  cases reqs with
  | nil => exact absurd rfl hreqs
  | cons r rs =>
    have hlazy : lazyAccess imp names World.start.lazyClasses = (levs, Except.ok cs) :=
      hload
    rw [runRequests, dispatch_ok imp names superInitialOk handler superFinalize r
      World.start levs cs hlazy hinit (fun c hc => hpre c hc r) (hsuper r) hpost]
    obtain ⟨h1, _⟩ := runRequests_warm imp names superInitialOk handler superFinalize cs
      hinit hpre hsuper hpost rs
      { World.start with
        lazyClasses := some cs
        view := ⟨some cs⟩
        log := World.start.log ++ levs ++ perRequestLog superFinalize handler cs r } rfl
    rw [h1]
    simp [World.start]

/-- C1 (amended), witness: two requests against the configuration ["A"]
resolve the class "A" once but log one instantiation of "A" per request. -/
theorem C1_witness :
    (runRequests impQuiet ["A"] (fun _ => true) (fun r => r) (fun _ r => r) [0, 1]
        World.start).log
      = [Event.importClass "A"]
        ++ [0, 1].flatMap (perRequestLog (fun _ r => r) (fun r => r) [mkQuiet "A"]) :=
  C1_amended impQuiet ["A"] (fun _ => true) (fun r => r) (fun _ r => r)
    [Event.importClass "A"] [mkQuiet "A"] rfl (by decide)
    (fun c hc r => by rcases List.mem_singleton.mp hc with rfl; rfl)
    (fun _ => rfl)
    (fun c hc r p => by rcases List.mem_singleton.mp hc with rfl; rfl)
    [0, 1] (by simp)

/-- C2. For a non-empty middleware list `pre ++ [last]`, response
finalization runs exactly one post-hook: `process_response` of the
last-registered middleware, applied to the request and the finalized
response; no post-hook of any earlier middleware appears in the run, and
the value that post-hook returns is the response handed back to the
caller. -/
theorem C2_only_last_post_hook (superFinalize : Request → Response → Response)
    (req : Request) (resp : Response) (pre : List MiddlewareClass)
    (last : MiddlewareClass) (w : World)
    (hview : w.view = ⟨some (pre ++ [last])⟩)
    (hpost : last.postOk req (superFinalize req resp) = true) :
    finalize_response superFinalize req resp w
      = ({ w with log := w.log ++ [Event.superFinalizeDone req,
             Event.postHook last.name req (superFinalize req resp)] },
         Except.ok (last.postRet req (superFinalize req resp))) := by
  rw [finalize_response_eq, hview,
    middleware_process_response_ne _ _ _ (by simp), lastSlice_concat,
    postLoop_single _ _ _ hpost]

/-- C2, witness at a configuration of two middlewares "A" and "B": only
"B"'s post-hook runs and its return value (the response unchanged, for a
quiet middleware) is the final response. -/
theorem C2_witness :
    finalize_response (fun _ r => r) 0 5
        { lazyClasses := none, view := ⟨some [mkQuiet "A", mkQuiet "B"]⟩, log := [] }
      = ({ lazyClasses := none, view := ⟨some [mkQuiet "A", mkQuiet "B"]⟩,
           log := [Event.superFinalizeDone 0, Event.postHook "B" 0 5] },
         Except.ok 5) :=
  C2_only_last_post_hook (fun _ r => r) 0 5 [mkQuiet "A"] (mkQuiet "B") _ rfl rfl

/-- C3. For a successfully resolved configuration, the i-th instantiated
class is the import of the i-th configured identifier (instantiation order
equals identifier order), and on a non-empty list the pre-hook events of a
request are exactly one `process_request` invocation per middleware, in
list order. -/
theorem C3_pre_hooks_in_declared_order (imp : String → Option MiddlewareClass)
    (names : List String) (levs : List Event) (cs : List MiddlewareClass)
    (req : Request)
    (hload : load_middleware_classes imp names = (levs, Except.ok cs))
    (hne : cs ≠ [])
    (hpre : ∀ c ∈ cs, c.preOk req = true) :
    List.Forall₂ (fun n c => imp n = some c) names cs ∧
    middleware_process_request req ⟨some cs⟩
      = (cs.map (fun c => Event.preHook c.name req), none) := by
  obtain ⟨-, cs', hcs', hfa⟩ := loadLoop_ok imp names [] levs cs hload
  constructor
  · rw [List.nil_append] at hcs'
    exact hcs' ▸ hfa
  · rw [middleware_process_request_ne _ _ hne, preLoop_ok _ _ hpre]

/-- C3, witness: the three identifiers "A", "B", "C" resolve in order and
their pre-hooks fire once each, in the declared order. -/
theorem C3_witness :
    List.Forall₂ (fun n c => impQuiet n = some c) ["A", "B", "C"]
        [mkQuiet "A", mkQuiet "B", mkQuiet "C"] ∧
    middleware_process_request 7 ⟨some [mkQuiet "A", mkQuiet "B", mkQuiet "C"]⟩
      = ([Event.preHook "A" 7, Event.preHook "B" 7, Event.preHook "C" 7], none) :=
  C3_pre_hooks_in_declared_order impQuiet ["A", "B", "C"]
    [Event.importClass "A", Event.importClass "B", Event.importClass "C"]
    [mkQuiet "A", mkQuiet "B", mkQuiet "C"] 7 rfl (by simp) (by decide)

/-- C4. When the pre-hook of the middleware `bad` raises (all middlewares
before it succeeding), dispatch of the request fails with that hook's
error, not swallowed: the run's events are the imports, the
instantiations, the framework's own `initial`, the pre-hooks of the
middlewares before `bad` in order, and `bad`'s pre-hook itself — no
pre-hook of any middleware after `bad`, and in particular the wrapped
handler never runs. -/
theorem C4_pre_hook_failure_aborts (imp : String → Option MiddlewareClass)
    (names : List String) (superInitialOk : Request → Bool)
    (handler : Request → Response) (superFinalize : Request → Response → Response)
    (req : Request) (w : World) (levs : List Event)
    (pre : List MiddlewareClass) (bad : MiddlewareClass) (rest : List MiddlewareClass)
    (hlazy : lazyAccess imp names w.lazyClasses = (levs, Except.ok (pre ++ bad :: rest)))
    (hinit : ∀ c ∈ pre ++ bad :: rest, c.initOk = true)
    (hsuper : superInitialOk req = true)
    (hpre : ∀ c ∈ pre, c.preOk req = true)
    (hbad : bad.preOk req = false) :
    dispatch imp names superInitialOk handler superFinalize req w
      = ({ w with
           lazyClasses := some (pre ++ bad :: rest)
           view := ⟨some (pre ++ bad :: rest)⟩
           log := w.log ++ levs
             ++ (pre ++ bad :: rest).map (fun c => Event.instantiate c.name)
             ++ Event.superInitialDone req
               :: (pre.map (fun c => Event.preHook c.name req)
                   ++ [Event.preHook bad.name req]) },
         Except.error (Err.hookError bad.name)) ∧
    Event.handlerRun req
      ∉ (dispatch imp names superInitialOk handler superFinalize req w).1.log.drop
          w.log.length := by
  have hne : pre ++ bad :: rest ≠ [] := by simp
  have h1 : middleware_process_request req ⟨some (pre ++ bad :: rest)⟩
      = (pre.map (fun c => Event.preHook c.name req) ++ [Event.preHook bad.name req],
         some (Err.hookError bad.name)) := by
    rw [middleware_process_request_ne _ _ hne, preLoop_fail req pre bad rest hpre hbad]
  have hdisp : dispatch imp names superInitialOk handler superFinalize req w
      = ({ w with
           lazyClasses := some (pre ++ bad :: rest)
           view := ⟨some (pre ++ bad :: rest)⟩
           log := w.log ++ levs
             ++ (pre ++ bad :: rest).map (fun c => Event.instantiate c.name)
             ++ Event.superInitialDone req
               :: (pre.map (fun c => Event.preHook c.name req)
                   ++ [Event.preHook bad.name req]) },
         Except.error (Err.hookError bad.name)) := by
    rw [dispatch, initial_ok imp names superInitialOk req w levs _ hlazy hinit hsuper, h1]
  refine ⟨hdisp, ?_⟩
  rw [hdisp]
  simp only [List.append_assoc, List.drop_left]
  intro hmem
  simp only [List.mem_append, List.mem_cons, List.mem_map] at hmem
  rcases hmem with h | ⟨c, -, h⟩ | h | ⟨c, -, h⟩ | h
  · obtain ⟨k, hk⟩ := lazyAccess_ok_events imp names w.lazyClasses levs _ hlazy _ h
    cases hk
  · cases h
  · cases h
  · cases h
  · rcases h with h | h
    · cases h
    · cases h

/-- C4, witness: with a warm cache of classes "A", "B", "C" where "B"'s
pre-hook raises, the dispatch of request 2 errors with "B"'s hook error,
logs only the three instantiations, the framework step and the pre-hooks
of "A" and "B", and the handler never runs. -/
theorem C4_witness :
    dispatch impQuiet ["A", "C"] (fun _ => true) (fun r => r + 1) (fun _ r => r) 2
        { lazyClasses := some [mkQuiet "A", mkBadPre "B", mkQuiet "C"],
          view := ⟨none⟩, log := [] }
      = ({ lazyClasses := some [mkQuiet "A", mkBadPre "B", mkQuiet "C"]
           view := ⟨some [mkQuiet "A", mkBadPre "B", mkQuiet "C"]⟩
           log := [Event.instantiate "A", Event.instantiate "B", Event.instantiate "C",
             Event.superInitialDone 2, Event.preHook "A" 2, Event.preHook "B" 2] },
         Except.error (Err.hookError "B")) ∧
    Event.handlerRun 2
      ∉ (dispatch impQuiet ["A", "C"] (fun _ => true) (fun r => r + 1) (fun _ r => r) 2
          { lazyClasses := some [mkQuiet "A", mkBadPre "B", mkQuiet "C"],
            view := ⟨none⟩, log := [] }).1.log.drop 0 := by
  have h := C4_pre_hook_failure_aborts impQuiet ["A", "C"] (fun _ => true)
    (fun r => r + 1) (fun _ r => r) 2
    { lazyClasses := some [mkQuiet "A", mkBadPre "B", mkQuiet "C"],
      view := ⟨none⟩, log := [] } [] [mkQuiet "A"] (mkBadPre "B") [mkQuiet "C"]
    rfl (by decide) rfl (by decide) rfl
  exact h

/-- C5. With an empty middleware list both hook phases are no-ops — no
`process_request` or `process_response` runs and the response argument is
returned unchanged — and a dispatch with an empty configuration yields
exactly the framework's own lifecycle events and the handler's finalized
response, untouched. -/
theorem C5_empty_config_is_noop (imp : String → Option MiddlewareClass)
    (superInitialOk : Request → Bool) (handler : Request → Response)
    (superFinalize : Request → Response → Response) (req : Request)
    (resp : Response) (w : World)
    (hw : w.lazyClasses = none) (hsuper : superInitialOk req = true) :
    middleware_process_request req ⟨some []⟩ = ([], none) ∧
    middleware_process_response req resp ⟨some []⟩ = ([], Except.ok resp) ∧
    dispatch imp [] superInitialOk handler superFinalize req w
      = ({ w with
           lazyClasses := some []
           view := ⟨some []⟩
           log := w.log ++ [Event.superInitialDone req, Event.handlerRun req,
             Event.superFinalizeDone req] },
         Except.ok (superFinalize req (handler req))) := by
  refine ⟨rfl, rfl, ?_⟩
  have hlazy : lazyAccess imp [] w.lazyClasses = ([], Except.ok []) := by
    rw [hw]; rfl
  rw [dispatch_ok imp [] superInitialOk handler superFinalize req w [] []
    hlazy (by simp) (by simp) hsuper (by simp)]
  simp [perRequestLog, perRequestResult]

/-- C5, witness at request 3 and response 4 from a fresh state. -/
theorem C5_witness :
    middleware_process_request 3 ⟨some []⟩ = ([], none) ∧
    middleware_process_response 3 4 ⟨some []⟩ = ([], Except.ok 4) ∧
    dispatch (fun _ => none) [] (fun _ => true) (fun r => r + 1) (fun _ r => r) 3
        World.start
      = ({ World.start with
           lazyClasses := some []
           view := ⟨some []⟩
           log := [Event.superInitialDone 3, Event.handlerRun 3,
             Event.superFinalizeDone 3] },
         Except.ok 4) :=
  C5_empty_config_is_noop (fun _ => none) (fun _ => true) (fun r => r + 1)
    (fun _ r => r) 3 4 World.start rfl rfl

/-- C6. If some configured identifier cannot be imported, or imports to a
class whose no-argument constructor raises, then a dispatch that triggers
the first resolution (empty lazy cache) fails with a resolution error —
an import error naming an unimportable identifier, or an instantiation error
naming the class of an identifier whose constructor fails. The error
surfaces out of that very request: the view's middleware list is never
assigned, and the run's only events are (successful) imports and
(successful, earlier) instantiations — no pre- or post-hook, no handler,
no framework step, so the failure is not deferred to per-request hook
execution. -/
theorem C6_resolution_failure_fatal_at_first_resolution
    (imp : String → Option MiddlewareClass) (names : List String)
    (superInitialOk : Request → Bool) (handler : Request → Response)
    (superFinalize : Request → Response → Response) (req : Request) (w : World)
    (hbad : ∃ n ∈ names, imp n = none ∨ ∃ c, imp n = some c ∧ c.initOk = false)
    (hw : w.lazyClasses = none) :
    ∃ er,
      ((∃ m, m ∈ names ∧ imp m = none ∧ er = Err.importError m) ∨
        (∃ n c, n ∈ names ∧ imp n = some c ∧ c.initOk = false ∧
          er = Err.initError c.name)) ∧
      (dispatch imp names superInitialOk handler superFinalize req w).2
        = Except.error er ∧
      (dispatch imp names superInitialOk handler superFinalize req w).1.view
        = w.view ∧
      ∀ e ∈ (dispatch imp names superInitialOk handler superFinalize req w).1.log.drop
          w.log.length,
        (∃ k, e = Event.importClass k) ∨ (∃ k, e = Event.instantiate k) := by
  rcases hload : load_middleware_classes imp names with ⟨levs, lres⟩
  have hload' : loadLoop imp names [] = (levs, lres) := hload
  have hlevs : ∀ e ∈ levs, ∃ k, e = Event.importClass k := by
    intro e he
    exact loadLoop_events imp names [] e (by rw [hload']; exact he)
  cases lres with
  | error er0 =>
    obtain ⟨m, hm, hmbad, her⟩ := loadLoop_err_inv imp names [] levs er0 hload'
    have hinit : init_middlewares imp names w
        = ({ w with log := w.log ++ levs }, some er0) := by
      rw [init_middlewares]
      simp [lazyAccess, hw, hload]
    have hdisp : dispatch imp names superInitialOk handler superFinalize req w
        = ({ w with log := w.log ++ levs }, Except.error er0) := by
      rw [dispatch, initial, hinit]
    refine ⟨er0, Or.inl ⟨m, hm, hmbad, her⟩, by rw [hdisp], by rw [hdisp], ?_⟩
    rw [hdisp]
    simp only [List.drop_left]
    exact fun e he => Or.inl (hlevs e he)
  | ok cs =>
    obtain ⟨-, cs', hcs', hfa⟩ := loadLoop_ok imp names [] levs cs hload'
    rw [List.nil_append] at hcs'
    subst hcs'
    obtain ⟨n, hn, hdisj⟩ := hbad
    have hc : ∃ c, imp n = some c ∧ c.initOk = false := by
      rcases hdisj with hnone | h
      · obtain ⟨c2, -, himp2⟩ := forall2_mem_left hfa n hn
        rw [hnone] at himp2
        cases himp2
      · exact h
    obtain ⟨c, himp, hcbad⟩ := hc
    have hcs : c ∈ cs := by
      obtain ⟨c2, hc2, himp2⟩ := forall2_mem_left hfa n hn
      rw [himp] at himp2
      injection himp2 with h3
      rw [h3]
      exact hc2
    obtain ⟨c0, ievs, hc0, hc0bad, hI⟩ := instantiateAll_err cs c hcs hcbad
    obtain ⟨n0, hn0, himp0⟩ := forall2_mem_right hfa c0 hc0
    have hinit : init_middlewares imp names w
        = ({ w with lazyClasses := some cs, log := w.log ++ levs ++ ievs },
           some (Err.initError c0.name)) := by
      rw [init_middlewares]
      simp [lazyAccess, hw, hload, hI]
    have hdisp : dispatch imp names superInitialOk handler superFinalize req w
        = ({ w with lazyClasses := some cs, log := w.log ++ levs ++ ievs },
           Except.error (Err.initError c0.name)) := by
      rw [dispatch, initial, hinit]
    refine ⟨Err.initError c0.name, Or.inr ⟨n0, c0, hn0, himp0, hc0bad, rfl⟩,
      by rw [hdisp], by rw [hdisp], ?_⟩
    rw [hdisp]
    simp only [List.append_assoc, List.drop_left]
    intro e he
    rcases List.mem_append.mp he with he | he
    · exact Or.inl (hlevs e he)
    · refine Or.inr ?_
      exact instantiateAll_events cs e (by rw [hI]; exact he)

/-- C6, witness at the instantiation-failure disjunct: "A" and "B" both
resolve, but "B"'s constructor raises; the first dispatch from a fresh
state fails with the instantiation error for "B", never assigns the view's
middleware list, and logs only the two imports and the instantiation of
"A" — no hook, no handler, no framework step. -/
theorem C6_witness :
    ∃ er,
      ((∃ m, m ∈ ["A", "B"] ∧ impBadInit m = none ∧ er = Err.importError m) ∨
        (∃ n c, n ∈ ["A", "B"] ∧ impBadInit n = some c ∧ c.initOk = false ∧
          er = Err.initError c.name)) ∧
      (dispatch impBadInit ["A", "B"] (fun _ => true) (fun r => r) (fun _ r => r) 0
        World.start).2 = Except.error er ∧
      (dispatch impBadInit ["A", "B"] (fun _ => true) (fun r => r) (fun _ r => r) 0
        World.start).1.view = World.start.view ∧
      ∀ e ∈ (dispatch impBadInit ["A", "B"] (fun _ => true) (fun r => r) (fun _ r => r) 0
        World.start).1.log.drop World.start.log.length,
        (∃ k, e = Event.importClass k) ∨ (∃ k, e = Event.instantiate k) :=
  C6_resolution_failure_fatal_at_first_resolution impBadInit ["A", "B"]
    (fun _ => true) (fun r => r) (fun _ r => r) 0 World.start
    ⟨"B", by simp, Or.inr ⟨mkBadInit "B", rfl, rfl⟩⟩ rfl

/-- C7. The abstract contract of `DRFMiddleware` declares both
`process_request` and `process_response` abstract: a derived class that
leaves either of them without an implementation cannot be instantiated,
and conversely an instantiable class implements both operations. -/
theorem C7_incomplete_middleware_rejected (ov : List MWOp) :
    ((MWOp.processRequest ∉ ov ∨ MWOp.processResponse ∉ ov) →
      canInstantiate ov = false) ∧
    (canInstantiate ov = true →
      MWOp.processRequest ∈ ov ∧ MWOp.processResponse ∈ ov) := by
  have hdir : ∀ l : List MWOp,
      (MWOp.processRequest ∉ l ∨ MWOp.processResponse ∉ l) →
      canInstantiate l = false := by
    intro l h
    rcases h with h | h
    · have hc : l.contains MWOp.processRequest = false := by simpa using h
      simp only [canInstantiate, remainingAbstract, abstractMethods]
      simp [hc]
      exact fun h' => absurd h' h
    · have hc : l.contains MWOp.processResponse = false := by simpa using h
      simp only [canInstantiate, remainingAbstract, abstractMethods]
      simp [hc]
      exact fun _ => h
  refine ⟨hdir ov, fun h => ⟨?_, ?_⟩⟩
  · by_contra hc
    rw [hdir ov (Or.inl hc)] at h
    cases h
  · by_contra hc
    rw [hdir ov (Or.inr hc)] at h
    cases h

/-- C7, witness: a class overriding only `process_request` cannot be
instantiated, and the fully-overriding class implements both operations. -/
theorem C7_witness :
    canInstantiate [MWOp.processRequest] = false ∧
    (MWOp.processRequest ∈ abstractMethods ∧ MWOp.processResponse ∈ abstractMethods) :=
  ⟨(C7_incomplete_middleware_rejected [MWOp.processRequest]).1 (Or.inr (by decide)),
   (C7_incomplete_middleware_rejected abstractMethods).2 (by decide)⟩

/-- C9. When `self.__middlewares` is still `None` (the view was
constructed but `initial` never ran), both hook runners are total no-ops:
neither raises, no hook event is produced, and
`middleware_process_response` returns its response argument unchanged. -/
theorem C9_uninitialized_middlewares_noop (req : Request) (resp : Response) :
    middleware_process_request req ⟨none⟩ = ([], none) ∧
    middleware_process_response req resp ⟨none⟩ = ([], Except.ok resp) :=
  ⟨rfl, rfl⟩

/-- C10. Hook phases are strictly ordered around the host framework's own
lifecycle steps: if `super().initial` raises, `initial` propagates that
error and the log shows no pre-hook ran; if it completes, the pre-hook
events come strictly after the `superInitialDone` marker; and
`finalize_response` first finalizes via the framework and only then hands
the finalized response `superFinalize req resp` to the post-hook phase,
returning that phase's result. -/
theorem C10_hooks_ordered_around_framework
    (imp : String → Option MiddlewareClass) (names : List String)
    (superInitialOk : Request → Bool) (superFinalize : Request → Response → Response)
    (req : Request) (resp : Response) (w : World)
    (levs : List Event) (cs : List MiddlewareClass)
    (hlazy : lazyAccess imp names w.lazyClasses = (levs, Except.ok cs))
    (hinit : ∀ c ∈ cs, c.initOk = true) :
    (superInitialOk req = false →
      initial imp names superInitialOk req w
        = ({ w with
             lazyClasses := some cs
             view := ⟨some cs⟩
             log := w.log ++ levs ++ cs.map (fun c => Event.instantiate c.name) },
           some Err.superInitialError)) ∧
    (superInitialOk req = true →
      (initial imp names superInitialOk req w).1.log
        = w.log ++ levs ++ cs.map (fun c => Event.instantiate c.name)
          ++ Event.superInitialDone req
            :: (middleware_process_request req ⟨some cs⟩).1) ∧
    (finalize_response superFinalize req resp w).1.log
      = w.log ++ Event.superFinalizeDone req
          :: (middleware_process_response req (superFinalize req resp) w.view).1 ∧
    (finalize_response superFinalize req resp w).2
      = (middleware_process_response req (superFinalize req resp) w.view).2 := by
  refine ⟨fun h => initial_superFail imp names superInitialOk req w levs cs hlazy hinit h,
    fun h => ?_, ?_, ?_⟩
  · rw [initial_ok imp names superInitialOk req w levs cs hlazy hinit h]
  · rw [finalize_response_eq]
  · rw [finalize_response_eq]

/-- C10, witness at the configuration ["A"], request 1 and response 9. -/
theorem C10_witness :
    ((fun (_ : Request) => true) 1 = false →
      initial impQuiet ["A"] (fun _ => true) 1 World.start
        = ({ World.start with
             lazyClasses := some [mkQuiet "A"]
             view := ⟨some [mkQuiet "A"]⟩
             log := World.start.log ++ [Event.importClass "A"]
               ++ [mkQuiet "A"].map (fun c => Event.instantiate c.name) },
           some Err.superInitialError)) ∧
    ((fun (_ : Request) => true) 1 = true →
      (initial impQuiet ["A"] (fun _ => true) 1 World.start).1.log
        = World.start.log ++ [Event.importClass "A"]
          ++ [mkQuiet "A"].map (fun c => Event.instantiate c.name)
          ++ Event.superInitialDone 1
            :: (middleware_process_request 1 ⟨some [mkQuiet "A"]⟩).1) ∧
    (finalize_response (fun _ r => r + 1) 1 9 World.start).1.log
      = World.start.log ++ Event.superFinalizeDone 1
          :: (middleware_process_response 1 ((fun (_ : Request) (r : Response) => r + 1) 1 9)
              World.start.view).1 ∧
    (finalize_response (fun _ r => r + 1) 1 9 World.start).2
      = (middleware_process_response 1 ((fun (_ : Request) (r : Response) => r + 1) 1 9)
          World.start.view).2 :=
  C10_hooks_ordered_around_framework impQuiet ["A"] (fun _ => true) (fun _ r => r + 1)
    1 9 World.start [Event.importClass "A"] [mkQuiet "A"] rfl (by decide)

/-- C8. The dispatcher discards the value returned by each `process_request`
pre-hook: two middleware lists that agree on everything except the values
their pre-hooks return produce bitwise-identical runs (same event log,
same final result) on the same state, and every request-bearing event of a
run — every pre-hook, post-hook, handler and framework step — mentions
exactly the original request, so a pre-hook returning a replacement
request has no effect on the rest of the chain. -/
theorem C8_pre_hook_return_value_discarded (imp : String → Option MiddlewareClass)
    (names : List String) (superInitialOk : Request → Bool)
    (handler : Request → Response) (superFinalize : Request → Response → Response)
    (req : Request) (cs cs' : List MiddlewareClass)
    (h : List.Forall₂ eqExceptPreRet cs cs') (v v' : ViewState) (L : List Event) :
    ((dispatch imp names superInitialOk handler superFinalize req
        ⟨some cs, v, L⟩).1.log
      = (dispatch imp names superInitialOk handler superFinalize req
        ⟨some cs', v', L⟩).1.log) ∧
    ((dispatch imp names superInitialOk handler superFinalize req
        ⟨some cs, v, L⟩).2
      = (dispatch imp names superInitialOk handler superFinalize req
        ⟨some cs', v', L⟩).2) ∧
    (∀ e ∈ (dispatch imp names superInitialOk handler superFinalize req
        ⟨some cs, v, L⟩).1.log.drop L.length,
      ∀ r, eventRequest e = some r → r = req) := by
  obtain ⟨hiev, hires⟩ := instantiateAll_congr h
  rcases hires with ⟨e, he, he'⟩ | ⟨ms, ms', hm, hm', hms⟩
  · have d1 : dispatch imp names superInitialOk handler superFinalize req
        ⟨some cs, v, L⟩
        = (⟨some cs, v, L ++ (instantiateAll cs).1⟩, Except.error e) := by
      rw [dispatch, initial, init_middlewares_warm_err imp names cs v L e he]
    have d2 : dispatch imp names superInitialOk handler superFinalize req
        ⟨some cs', v', L⟩
        = (⟨some cs', v', L ++ (instantiateAll cs').1⟩, Except.error e) := by
      rw [dispatch, initial, init_middlewares_warm_err imp names cs' v' L e he']
    exact ⟨by simp [d1, d2, hiev], by simp [d1, d2],
      dispatch_req_events imp names superInitialOk handler superFinalize req
        ⟨some cs, v, L⟩⟩
  · have i1 := init_middlewares_warm_ok imp names cs v L ms hm
    have i2 := init_middlewares_warm_ok imp names cs' v' L ms' hm'
    have hmpr := middleware_process_request_congr req hms
    cases hS : superInitialOk req with
    | false =>
      have d1 : dispatch imp names superInitialOk handler superFinalize req
          ⟨some cs, v, L⟩
          = (⟨some cs, ⟨some ms⟩, L ++ (instantiateAll cs).1⟩,
             Except.error Err.superInitialError) := by
        rw [dispatch, initial, i1]
        simp [hS]
      have d2 : dispatch imp names superInitialOk handler superFinalize req
          ⟨some cs', v', L⟩
          = (⟨some cs', ⟨some ms'⟩, L ++ (instantiateAll cs').1⟩,
             Except.error Err.superInitialError) := by
        rw [dispatch, initial, i2]
        simp [hS]
      exact ⟨by simp [d1, d2, hiev], by simp [d1, d2],
        dispatch_req_events imp names superInitialOk handler superFinalize req
        ⟨some cs, v, L⟩⟩
    | true =>
      rcases hr : middleware_process_request req ⟨some ms⟩ with ⟨revs, rres⟩
      have hr' : middleware_process_request req ⟨some ms'⟩ = (revs, rres) := by
        rw [← hmpr, hr]
      cases rres with
      | some e2 =>
        have d1 : dispatch imp names superInitialOk handler superFinalize req
            ⟨some cs, v, L⟩
            = (⟨some cs, ⟨some ms⟩, L ++ (instantiateAll cs).1
                ++ [Event.superInitialDone req] ++ revs⟩, Except.error e2) := by
          rw [dispatch, initial, i1]
          simp [hS, hr]
        have d2 : dispatch imp names superInitialOk handler superFinalize req
            ⟨some cs', v', L⟩
            = (⟨some cs', ⟨some ms'⟩, L ++ (instantiateAll cs').1
                ++ [Event.superInitialDone req] ++ revs⟩, Except.error e2) := by
          rw [dispatch, initial, i2]
          simp [hS, hr']
        exact ⟨by simp [d1, d2, hiev], by simp [d1, d2],
          dispatch_req_events imp names superInitialOk handler superFinalize req
        ⟨some cs, v, L⟩⟩
      | none =>
        have hmresp := middleware_process_response_congr req
          (superFinalize req (handler req)) hms
        have d1 : dispatch imp names superInitialOk handler superFinalize req
            ⟨some cs, v, L⟩
            = (⟨some cs, ⟨some ms⟩, L ++ (instantiateAll cs).1
                ++ [Event.superInitialDone req] ++ revs ++ [Event.handlerRun req]
                ++ Event.superFinalizeDone req
                  :: (middleware_process_response req
                      (superFinalize req (handler req)) ⟨some ms⟩).1⟩,
               (middleware_process_response req
                   (superFinalize req (handler req)) ⟨some ms⟩).2) := by
          rw [dispatch, initial, i1]
          simp [hS, hr, finalize_response_eq]
        have d2 : dispatch imp names superInitialOk handler superFinalize req
            ⟨some cs', v', L⟩
            = (⟨some cs', ⟨some ms'⟩, L ++ (instantiateAll cs').1
                ++ [Event.superInitialDone req] ++ revs ++ [Event.handlerRun req]
                ++ Event.superFinalizeDone req
                  :: (middleware_process_response req
                      (superFinalize req (handler req)) ⟨some ms'⟩).1⟩,
               (middleware_process_response req
                   (superFinalize req (handler req)) ⟨some ms'⟩).2) := by
          rw [dispatch, initial, i2]
          simp [hS, hr', finalize_response_eq]
        exact ⟨by simp [d1, d2, hiev, hmresp], by simp [d1, d2, hmresp],
          dispatch_req_events imp names superInitialOk handler superFinalize req
        ⟨some cs, v, L⟩⟩

/-- C8, witness: the quiet class and the class returning a replacement
request from its pre-hook produce the same run on request 4, and every
request-bearing event of that run mentions request 4. -/
theorem C8_witness :
    ((dispatch impQuiet ["A"] (fun _ => true) (fun r => r) (fun _ r => r) 4
        ⟨some [mkQuiet "A"], ⟨none⟩, []⟩).1.log
      = (dispatch impQuiet ["A"] (fun _ => true) (fun r => r) (fun _ r => r) 4
        ⟨some [mkShiftPre "A"], ⟨none⟩, []⟩).1.log) ∧
    ((dispatch impQuiet ["A"] (fun _ => true) (fun r => r) (fun _ r => r) 4
        ⟨some [mkQuiet "A"], ⟨none⟩, []⟩).2
      = (dispatch impQuiet ["A"] (fun _ => true) (fun r => r) (fun _ r => r) 4
        ⟨some [mkShiftPre "A"], ⟨none⟩, []⟩).2) ∧
    (∀ e ∈ (dispatch impQuiet ["A"] (fun _ => true) (fun r => r) (fun _ r => r) 4
        ⟨some [mkQuiet "A"], ⟨none⟩, []⟩).1.log.drop ([] : List Event).length,
      ∀ r, eventRequest e = some r → r = 4) :=
  C8_pre_hook_return_value_discarded impQuiet ["A"] (fun _ => true) (fun r => r)
    (fun _ r => r) 4 [mkQuiet "A"] [mkShiftPre "A"]
    (List.Forall₂.cons ⟨rfl, rfl, rfl, rfl, rfl⟩ List.Forall₂.nil) ⟨none⟩ ⟨none⟩ []

end Claims

end DrfMiddleware
